import Mathlib

/-!
Verification development for the `mirror` website-mirroring program.

The Rust sources are shallowly embedded: strings are lists of characters
(`Str`), `String::replace` becomes `replaceAll`, `str::ends_with` becomes
`sEndsWith`, and so on.  External collaborators named by the spec (the HTTP
client, the HTML tokenizer, the image codec, the filesystem write primitive)
are taken as parameters of the embedded functions.  The `url` crate, used by
`html_parser.rs` for URL parsing and joining, is modelled by `Url.parse` /
`Url.join` below following the WHATWG semantics the crate implements, on the
fragment of inputs the program exercises.
-/

namespace Mirror

/-- Strings are modelled as lists of characters (Rust iterates `chars()`). -/
abbrev Str := List Char

/-- Converts a Lean string literal to the character-list representation. -/
def str (s : String) : Str := s.data

/-- Does `p` occur as a prefix of `s`?  Models `str::starts_with` and is the
basic matching step of `String::replace`. -/
def matchHere : Str → Str → Bool
  | [], _ => true
  | _ :: _, [] => false
  | p :: ps, c :: cs => p == c && matchHere ps cs

/-- Does `p` occur anywhere in `s` (as a contiguous substring)?  Models
`str::contains` with a string pattern. -/
def occursB (p : Str) : Str → Bool
  | [] => matchHere p []
  | c :: cs => matchHere p (c :: cs) || occursB p cs

/-- Models `str::ends_with`. -/
def sEndsWith (s suf : Str) : Bool :=
  matchHere suf (s.drop (s.length - suf.length))

/-- Fueled worker for `replaceAll`; fuel is an upper bound on the number of
scanning steps, set to the string length by the wrapper. -/
def replaceAllGo (p r : Str) : Nat → Str → Str
  | _, [] => []
  | 0, s => s
  | Nat.succ f, c :: cs =>
    if 0 < p.length ∧ matchHere p (c :: cs) = true then
      r ++ replaceAllGo p r f ((c :: cs).drop p.length)
    else
      c :: replaceAllGo p r f cs

/-- Models Rust `String::replace(p, r)`: replace every non-overlapping
occurrence of `p`, scanning left to right (all patterns used by the program
are non-empty, which the guard `0 < p.length` reflects). -/
def replaceAll (p r s : Str) : Str := replaceAllGo p r s.length s

theorem matchHere_iff (p s : Str) : matchHere p s = true ↔ ∃ t, s = p ++ t := by
  induction p generalizing s with
  | nil => simp [matchHere]
  | cons a ps ih =>
    cases s with
    | nil => simp [matchHere]
    | cons c cs =>
      simp only [matchHere, Bool.and_eq_true, beq_iff_eq, ih, List.cons_append,
        List.cons.injEq]
      aesop

theorem matchHere_refl (p : Str) : matchHere p p = true := by
  rw [matchHere_iff]; exact ⟨[], by simp⟩

theorem matchHere_append (p t : Str) : matchHere p (p ++ t) = true := by
  rw [matchHere_iff]; exact ⟨t, rfl⟩

theorem matchHere_length_le {p s : Str} (h : matchHere p s = true) :
    p.length ≤ s.length := by
  rcases (matchHere_iff p s).1 h with ⟨t, rfl⟩
  simp [List.length_append]

theorem occursB_iff (p s : Str) :
    occursB p s = true ↔ ∃ i, matchHere p (s.drop i) = true := by
  induction s with
  | nil =>
    simp only [occursB]
    constructor
    · intro h; exact ⟨0, by simpa using h⟩
    · rintro ⟨i, hi⟩; simpa using hi
  | cons c cs ih =>
    simp only [occursB, Bool.or_eq_true, ih]
    constructor
    · rintro (h | ⟨i, hi⟩)
      · exact ⟨0, by simpa using h⟩
      · exact ⟨i + 1, by simpa using hi⟩
    · rintro ⟨i, hi⟩
      cases i with
      | zero => exact Or.inl (by simpa using hi)
      | succ j => exact Or.inr ⟨j, by simpa using hi⟩

theorem occursB_of_matchHere {p s : Str} (h : matchHere p s = true) :
    occursB p s = true :=
  (occursB_iff p s).2 ⟨0, by simpa using h⟩

theorem not_matchHere_of_not_occursB {p s : Str} (h : occursB p s = false)
    (i : Nat) : matchHere p (s.drop i) = true → False := by
  intro hm
  have := (occursB_iff p s).2 ⟨i, hm⟩
  rw [h] at this; cases this

/-- An occurrence in the tail is an occurrence. -/
theorem occursB_tail {p : Str} {c : Char} {cs : Str}
    (h : occursB p (c :: cs) = false) : occursB p cs = false := by
  by_contra hne
  have h2 : occursB p cs = true := by
    cases hcs : occursB p cs with
    | false => exact absurd hcs hne
    | true => rfl
  rcases (occursB_iff p cs).1 h2 with ⟨i, hi⟩
  exact not_matchHere_of_not_occursB h (i + 1) (by simpa using hi)

theorem occursB_drop {p s : Str} (h : occursB p s = false) (n : Nat) :
    occursB p (s.drop n) = false := by
  induction n generalizing s with
  | zero => simpa using h
  | succ m ih =>
    cases s with
    | nil => simpa using h
    | cons c cs => simpa using ih (occursB_tail h)

/-- Fuel irrelevance: any fuel at least the string length gives the same
result, so `replaceAll` satisfies the natural unfolding equations. -/
theorem replaceAllGo_fuel (p r : Str) :
    ∀ f g s, s.length ≤ f → s.length ≤ g →
      replaceAllGo p r f s = replaceAllGo p r g s := by
  intro f
  induction f with
  | zero =>
    intro g s hf _
    cases s with
    | nil => cases g <;> rfl
    | cons c cs => simp at hf
  | succ f ih =>
    intro g s hf hg
    cases s with
    | nil => cases g <;> rfl
    | cons c cs =>
      cases g with
      | zero => simp at hg
      | succ g =>
        simp only [List.length_cons] at hf hg
        simp only [replaceAllGo]
        by_cases h : 0 < p.length ∧ matchHere p (c :: cs) = true
        · obtain ⟨hp, hm⟩ := h
          rw [if_pos ⟨hp, hm⟩, if_pos ⟨hp, hm⟩]
          have hlen : ((c :: cs).drop p.length).length ≤ f := by
            simp only [List.length_drop, List.length_cons]
            omega
          have hlen' : ((c :: cs).drop p.length).length ≤ g := by
            simp only [List.length_drop, List.length_cons]
            omega
          rw [ih g _ hlen hlen']
        · rw [if_neg h, if_neg h]
          rw [ih g cs (by omega) (by omega)]

theorem replaceAll_nil (p r : Str) : replaceAll p r [] = [] := rfl

theorem replaceAll_cons_match (p r : Str) (c : Char) (cs : Str)
    (hp : 0 < p.length) (hm : matchHere p (c :: cs) = true) :
    replaceAll p r (c :: cs) = r ++ replaceAll p r ((c :: cs).drop p.length) := by
  show replaceAllGo p r (c :: cs).length (c :: cs) = _
  cases hL : (c :: cs).length with
  | zero => simp at hL
  | succ n =>
    simp only [replaceAllGo, if_pos (And.intro hp hm)]
    congr 1
    apply replaceAllGo_fuel
    · simp only [List.length_drop]
      simp only [List.length_cons] at hL ⊢
      omega
    · simp [List.length_drop]

theorem replaceAll_cons_nomatch (p r : Str) (c : Char) (cs : Str)
    (h : ¬(0 < p.length ∧ matchHere p (c :: cs) = true)) :
    replaceAll p r (c :: cs) = c :: replaceAll p r cs := by
  show replaceAllGo p r (c :: cs).length (c :: cs) = _
  simp only [List.length_cons, replaceAllGo, if_neg h]
  rfl

/-- If the pattern occurs nowhere in `s`, `replaceAll` is the identity. -/
theorem replaceAll_id {p : Str} (r : Str) :
    ∀ s : Str, occursB p s = false → replaceAll p r s = s := by
  intro s
  induction s with
  | nil => intro _; rfl
  | cons c cs ih =>
    intro h
    have hnm : ¬(0 < p.length ∧ matchHere p (c :: cs) = true) := by
      rintro ⟨_, hm⟩
      rw [occursB, hm] at h
      simp at h
    rw [replaceAll_cons_nomatch p r c cs hnm, ih (occursB_tail h)]

theorem replaceAll_match (p r s : Str) (hp : 0 < p.length)
    (hm : matchHere p s = true) :
    replaceAll p r s = r ++ replaceAll p r (s.drop p.length) := by
  cases s with
  | nil =>
    exfalso
    cases p with
    | nil => simp at hp
    | cons a ps => simp [matchHere] at hm
  | cons c cs => exact replaceAll_cons_match p r c cs hp hm

theorem sEndsWith_intro (pre suf : Str) : sEndsWith (pre ++ suf) suf = true := by
  unfold sEndsWith
  have h1 : (pre ++ suf).length - suf.length = pre.length := by
    simp [List.length_append]
  rw [h1, List.drop_left]
  exact matchHere_refl suf

theorem sEndsWith_elim {s suf : Str} (h : sEndsWith s suf = true) :
    ∃ pre, s = pre ++ suf := by
  unfold sEndsWith at h
  rcases (matchHere_iff _ _).1 h with ⟨t, ht⟩
  have hlen := congrArg List.length ht
  simp only [List.length_drop, List.length_append] at hlen
  have ht0 : t.length = 0 := by omega
  have ht' : t = [] := List.eq_nil_of_length_eq_zero ht0
  subst ht'
  rw [List.append_nil] at ht
  have hsplit := List.take_append_drop (s.length - suf.length) s
  rw [ht] at hsplit
  exact ⟨s.take (s.length - suf.length), hsplit.symm⟩

theorem sEndsWith_iff (s suf : Str) :
    sEndsWith s suf = true ↔ ∃ pre, s = pre ++ suf := by
  constructor
  · exact sEndsWith_elim
  · rintro ⟨pre, rfl⟩; exact sEndsWith_intro pre suf

theorem sEndsWith_cons {s suf : Str} (c : Char)
    (h : sEndsWith s suf = true) : sEndsWith (c :: s) suf = true := by
  rcases sEndsWith_elim h with ⟨pre, rfl⟩
  exact sEndsWith_intro (c :: pre) suf

theorem sEndsWith_append_left {s suf : Str} (x : Str)
    (h : sEndsWith s suf = true) : sEndsWith (x ++ s) suf = true := by
  rcases sEndsWith_elim h with ⟨pre, rfl⟩
  rw [← List.append_assoc]
  exact sEndsWith_intro (x ++ pre) suf

theorem sEndsWith_refl (s : Str) : sEndsWith s s = true := by
  have := sEndsWith_intro [] s
  simpa using this

/-- After globally replacing a non-self-overlapping pattern `p` that `s` ends
with, the result ends with the replacement `r`.  The hypothesis `hov` states
that no proper suffix of `p` is a prefix of `p` (true of each of the six
extension patterns, where the dot occurs only at position 0). -/
theorem replaceAll_ends {p r : Str} (hp : 0 < p.length)
    (hov : ∀ k, k < p.length → 0 < k → matchHere (p.drop k) p = false) :
    ∀ s, sEndsWith s p = true → sEndsWith (replaceAll p r s) r = true := by
  intro s
  generalize hn : s.length = n
  induction n using Nat.strong_induction_on generalizing s with
  | _ n ih =>
    intro hend
    rcases sEndsWith_elim hend with ⟨pre, rfl⟩
    by_cases hm : matchHere p (pre ++ p) = true
    · rw [replaceAll_match p r _ hp hm]
      rcases (matchHere_iff _ _).1 hm with ⟨t, hsplit⟩
      by_cases hpre : pre = []
      · subst hpre
        have hdrop : ([] ++ p).drop p.length = ([] : Str) := by simp
        rw [hdrop, replaceAll_nil]
        rw [List.append_nil]
        exact sEndsWith_refl r
      · by_cases hle : p.length ≤ pre.length
        · have hdrop : (pre ++ p).drop p.length = pre.drop p.length ++ p :=
            List.drop_append_of_le_length hle
          rw [hdrop]
          have hlt : (pre.drop p.length ++ p).length < n := by
            subst hn
            simp only [List.length_append, List.length_drop]
            omega
          have := ih _ hlt (pre.drop p.length ++ p) rfl (sEndsWith_intro _ p)
          exact sEndsWith_append_left r this
        · exfalso
          push_neg at hle
          have hprelen : 0 < pre.length := List.length_pos.2 hpre
          have hdrop := congrArg (List.drop pre.length) hsplit
          rw [List.drop_left] at hdrop
          rw [List.drop_append_of_le_length (Nat.le_of_lt hle)] at hdrop
          have : matchHere (p.drop pre.length) p = true :=
            (matchHere_iff _ _).2 ⟨t, hdrop⟩
          rw [hov pre.length hle hprelen] at this
          cases this
    · cases pre with
      | nil =>
        exfalso
        apply hm
        simpa using matchHere_refl p
      | cons c pre' =>
        have heq : (c :: pre') ++ p = c :: (pre' ++ p) := rfl
        rw [heq]
        rw [replaceAll_cons_nomatch p r c (pre' ++ p)
          (by rintro ⟨_, hmm⟩; rw [heq] at hm; exact hm hmm)]
        apply sEndsWith_cons
        have hlt : (pre' ++ p).length < n := by
          subst hn; simp [List.length_append]
        exact ih _ hlt (pre' ++ p) rfl (sEndsWith_intro pre' p)

/-- Globally replacing a pattern `p` cannot disturb a trailing suffix `suf`
when `p` does not occur inside `suf` (`h1`) and no proper suffix of `p` is a
prefix of `suf` (`h2`), so that no occurrence of `p` can reach into the
trailing `suf`. -/
theorem replaceAll_keeps_suffix {p r suf : Str} (hp : 0 < p.length)
    (h1 : occursB p suf = false)
    (h2 : ∀ k, k < p.length → 0 < k → matchHere (p.drop k) suf = false) :
    ∀ s, sEndsWith s suf = true → sEndsWith (replaceAll p r s) suf = true := by
  intro s
  generalize hn : s.length = n
  induction n using Nat.strong_induction_on generalizing s with
  | _ n ih =>
    intro hend
    rcases sEndsWith_elim hend with ⟨pre, rfl⟩
    by_cases hm : matchHere p (pre ++ suf) = true
    · rcases (matchHere_iff _ _).1 hm with ⟨t, hsplit⟩
      have hple : p.length ≤ pre.length := by
        by_contra hlt
        push_neg at hlt
        by_cases hpre : pre = []
        · subst hpre
          simp only [List.nil_append] at hsplit
          have : matchHere p suf = true := (matchHere_iff _ _).2 ⟨t, hsplit⟩
          exact not_matchHere_of_not_occursB h1 0 (by simpa using this)
        · have hprelen : 0 < pre.length := List.length_pos.2 hpre
          have hdrop := congrArg (List.drop pre.length) hsplit
          rw [List.drop_left] at hdrop
          rw [List.drop_append_of_le_length (Nat.le_of_lt hlt)] at hdrop
          have : matchHere (p.drop pre.length) suf = true :=
            (matchHere_iff _ _).2 ⟨t, hdrop⟩
          rw [h2 pre.length hlt hprelen] at this
          cases this
      rw [replaceAll_match p r _ hp hm]
      have hdrop : (pre ++ suf).drop p.length = pre.drop p.length ++ suf :=
        List.drop_append_of_le_length hple
      rw [hdrop]
      have hlt : (pre.drop p.length ++ suf).length < n := by
        subst hn
        simp only [List.length_append, List.length_drop]
        omega
      have := ih _ hlt (pre.drop p.length ++ suf) rfl (sEndsWith_intro _ suf)
      exact sEndsWith_append_left r this
    · cases pre with
      | nil =>
        rw [List.nil_append] at *
        rw [replaceAll_id r suf h1]
        exact sEndsWith_refl suf
      | cons c pre' =>
        have heq : (c :: pre') ++ suf = c :: (pre' ++ suf) := rfl
        rw [heq]
        rw [replaceAll_cons_nomatch p r c (pre' ++ suf)
          (by rintro ⟨_, hmm⟩; rw [heq] at hm; exact hm hmm)]
        apply sEndsWith_cons
        have hlt : (pre' ++ suf).length < n := by
          subst hn; simp [List.length_append]
        exact ih _ hlt (pre' ++ suf) rfl (sEndsWith_intro pre' suf)

/-! ### URL model

`html_parser.rs` delegates URL parsing, joining and serialization to the
`url` crate (an external dependency implementing the WHATWG URL standard).
The model below reproduces the crate's behaviour on the shapes of input the
program exercises: absolute `http`/`https` URLs written
`scheme://host/path?query#fragment`, non-special scheme'd references such as
`mailto:`/`data:`/`tel:`/`javascript:` (which the crate parses as absolute
cannot-be-a-base URLs, host-less), fragment-only, query-only, path-absolute
and plain relative references.  Userinfo/port syntax, percent-encoding and
dot-segment normalization are not exercised by any claim and are not
modelled. -/

/-- The single-quote character (written via its code point to keep string
literals quote-free). -/
def squote : Char := Char.ofNat 39

/-- The double-quote character. -/
def dquote : Char := Char.ofNat 34

/-- ASCII whitespace, the fragment of the regex class `\s` the program's
inputs can contain. -/
def isWs (c : Char) : Bool :=
  c == ' ' || c == Char.ofNat 9 || c == Char.ofNat 10 || c == Char.ofNat 11 ||
    c == Char.ofNat 12 || c == Char.ofNat 13

/-- Splits at the first occurrence of `ch`: the part before it and, when the
character occurs, the part after it. -/
def splitFirst (ch : Char) : Str → Str × Option Str
  | [] => ([], none)
  | c :: cs =>
    if c == ch then ([], some cs)
    else
      let (a, b) := splitFirst ch cs
      (c :: a, b)

/-- The part of the string before the first of the stop characters, paired
with the remainder (which begins with a stop character if any occurred). -/
def spanUntil (stop : List Char) : Str → Str × Str
  | [] => ([], [])
  | c :: cs =>
    if stop.contains c then ([], c :: cs)
    else
      let (a, b) := spanUntil stop cs
      (c :: a, b)

def isSchemeTailChar (c : Char) : Bool :=
  c.isAlphanum || c == '+' || c == '-' || c == '.'

def splitSchemeGo : Str → Option (Str × Str)
  | [] => none
  | c :: cs =>
    if c == ':' then some ([], cs)
    else if isSchemeTailChar c then
      (splitSchemeGo cs).map (fun ab => (c :: ab.1, ab.2))
    else none

/-- Splits a leading `scheme:` (first character alphabetic, rest scheme
characters) from a reference, per RFC 3986 / WHATWG. -/
def splitScheme : Str → Option (Str × Str)
  | [] => none
  | c :: cs =>
    if c.isAlpha then (splitSchemeGo cs).map (fun ab => (c :: ab.1, ab.2))
    else none

structure Url where
  scheme : Str
  host : Option Str
  path : Str
  query : Option Str
  fragment : Option Str
deriving DecidableEq, Repr

/-- The special schemes the program uses (WHATWG also lists ftp/ws/wss/file,
which the program never produces). -/
def specialScheme (sc : Str) : Bool := sc == str "http" || sc == str "https"

/-- Splits `path?query#fragment` after the authority. -/
def parsePathQueryFrag (rest : Str) : Str × Option Str × Option Str :=
  let (beforeHash, frag) := splitFirst '#' rest
  let (path, q) := splitFirst '?' beforeHash
  (path, q, frag)

/-- Model of `url::Url::parse`.  Returns `none` where the crate returns a
parse error: no scheme (a relative reference), or a special scheme without
the `//` authority marker, or an empty host for a special scheme. -/
def Url.parseL (s : Str) : Option Url :=
  match splitScheme s with
  | none => none
  | some (sc0, rest) =>
    let sc := sc0.map Char.toLower
    if specialScheme sc then
      match rest with
      | '/' :: '/' :: rest2 =>
        let (auth, after) := spanUntil ['/', '?', '#'] rest2
        if auth.isEmpty then none
        else
          let (path0, q, fr) := parsePathQueryFrag after
          let path := if path0.isEmpty then str "/" else path0
          some ⟨sc, some (auth.map Char.toLower), path, q, fr⟩
      | _ => none
    else
      match rest with
      | '/' :: '/' :: rest2 =>
        let (auth, after) := spanUntil ['/', '?', '#'] rest2
        let (path0, q, fr) := parsePathQueryFrag after
        some ⟨sc, some (auth.map Char.toLower), path0, q, fr⟩
      | _ =>
        let (path, q, fr) := parsePathQueryFrag rest
        some ⟨sc, none, path, q, fr⟩

/-- Model of `url::Url::to_string` (the serialization `Display` impl). -/
def Url.serialize (u : Url) : Str :=
  u.scheme ++ ':' ::
    ((match u.host with
      | some h => '/' :: '/' :: h
      | none => []) ++
     u.path ++
     (match u.query with
      | some q => '?' :: q
      | none => []) ++
     (match u.fragment with
      | some f => '#' :: f
      | none => []))

/-- The directory part of a path, up to and including the final slash. -/
def dirOf (p : Str) : Str := (p.reverse.dropWhile (fun c => !(c == '/'))).reverse

/-- Model of `url::Url::join` (WHATWG relative-reference resolution):
a reference carrying its own scheme parses as an absolute URL; otherwise
empty, fragment-only, query-only, network-path (`//`), path-absolute and
plain relative references update the corresponding components of the base.
(A reference written `https:foo` against an `https` base, and dot segments,
are unexercised and unmodelled.) -/
def Url.join (base : Url) (ref : Str) : Option Url :=
  match Url.parseL ref with
  | some u => some u
  | none =>
    match ref with
    | [] => some { base with fragment := none }
    | '#' :: fr => some { base with fragment := some fr }
    | '?' :: rest =>
      let (q, fr) := splitFirst '#' rest
      some { base with query := some q, fragment := fr }
    | '/' :: '/' :: _ => Url.parseL (base.scheme ++ ':' :: ref)
    | '/' :: _ =>
      let (p, q, fr) := parsePathQueryFrag ref
      some { base with path := p, query := q, fragment := fr }
    | _ =>
      let (rp, q, fr) := parsePathQueryFrag ref
      some { base with path := dirOf base.path ++ rp, query := q, fragment := fr }

/-! ### html_parser.rs -/

/-- `html_parser.rs::HtmlParser::resolve_url`. -/
def resolve_url (base : Url) (u : Str) : Option Url :=
  if matchHere (str "http://") u || matchHere (str "https://") u then
    Url.parseL u
  else if matchHere (str "//") u then
    Url.parseL (base.scheme ++ ':' :: u)
  else
    base.join u

/-- The per-character sanitization match of
`html_parser.rs::HtmlParser::sanitize_path`. -/
def sanChar (c : Char) : Char :=
  if c == '?' || c == '&' || c == '=' || c == '#' then '_'
  else if c == ' ' then '_'
  else if c.isAlphanum || c == '/' || c == '.' || c == '-' then c
  else '_'

/-- `html_parser.rs::HtmlParser::sanitize_path`. -/
def sanitize_path (p : Str) : Str := p.map sanChar

/-- `html_parser.rs::HtmlParser::url_to_local_path` (always `Ok` in the
source, hence a total function here). -/
def url_to_local_path (u : Url) : Str :=
  let path1 :=
    match u.path with
    | '/' :: rest => rest
    | p => p
  let path2 :=
    if path1.isEmpty then str "index.html"
    else if sEndsWith path1 (str "/") then path1 ++ str "index.html"
    else if !(path1.contains '.') then path1 ++ str "/index.html"
    else path1
  let path3 :=
    match u.query with
    | some q => if q.isEmpty then path2 else path2 ++ '?' :: q
    | none => path2
  sanitize_path path3

/-- `html_parser.rs::HtmlParser::url_to_local_path_string`. -/
def url_to_local_path_string (base : Url) (u : Str) : Option Str :=
  if matchHere (str "http://") u || matchHere (str "https://") u then
    (Url.parseL u).map url_to_local_path
  else
    (resolve_url base u).map url_to_local_path

/-- `html_parser.rs::ResourceType`.  The enum declaration in the snapshot of
`html_parser.rs` lists only the first five variants, but `downloader.rs`
matches exhaustively over all seven (including `PDF` and `Video`), so the
enum of the built program has all seven. -/
inductive ResourceType
  | CSS
  | JavaScript
  | Image
  | Link
  | PDF
  | Video
  | Other
deriving DecidableEq, Repr

structure ResourceLink where
  original_url : Str
  local_path : Str
  resource_type : ResourceType
deriving DecidableEq, Repr

/-- `html_parser.rs::HtmlParser::create_resource_link`: resolve, compute the
local path, and record the serialized absolute URL. -/
def create_resource_link (base : Url) (u : Str) (rt : ResourceType) :
    Option ResourceLink :=
  match resolve_url base u with
  | none => none
  | some abs => some ⟨Url.serialize abs, url_to_local_path abs, rt⟩

/-- An HTML element as delivered by the tokenizer (the `select` crate), which
the spec treats as an external capability yielding tag names and attribute
values.  A parsed document is its element list in document order. -/
structure Element where
  tag : Str
  attrs : List (Str × Str)
deriving DecidableEq, Repr

def Element.attr (e : Element) (name : Str) : Option Str :=
  (e.attrs.find? (fun p => p.1 == name)).map (fun p => p.2)

/-- `document.find(Name(t))`. -/
def findTag (doc : List Element) (t : Str) : List Element :=
  doc.filter (fun e => e.tag == t)

/-- `document.find(Attr(a, ()))`: elements carrying attribute `a`. -/
def findWithAttr (doc : List Element) (a : Str) : List Element :=
  doc.filter (fun e => (e.attr a).isSome)

/-- Characters admitted by the regex class `[^'")\s]` used by the
`background` patterns of `extract_background_images_from_css`. -/
def bgClassChar (c : Char) : Bool :=
  !(c == squote || c == dquote || c == ')' || isWs c)

/-- One attempted match, at the start of `s`, of the regex
`LIT\s*url\(['"]?([^'")\s]+)['"]?\)` where `LIT` is `background-image:` or
`background:`.  Returns the capture and the total match length.  The capture
class excludes quotes, `)` and whitespace, so the greedy scan followed by the
optional closing quote and the required `)` is deterministic. -/
def bgMatchAt (lit : Str) (s : Str) : Option (Str × Nat) :=
  if matchHere lit s then
    let s1 := s.drop lit.length
    let wsn := (s1.takeWhile isWs).length
    let s2 := s1.drop wsn
    if matchHere (str "url(") s2 then
      let s3 := s2.drop 4
      let (qn, s4) :=
        match s3 with
        | c :: rest => if c == squote || c == dquote then (1, rest) else (0, s3)
        | [] => (0, s3)
      let cap := s4.takeWhile bgClassChar
      if cap.isEmpty then none
      else
        let s5 := s4.drop cap.length
        let (qn2, s6) :=
          match s5 with
          | c :: rest => if c == squote || c == dquote then (1, rest) else (0, s5)
          | [] => (0, s5)
        match s6 with
        | ')' :: _ => some (cap, lit.length + wsn + 4 + qn + cap.length + qn2 + 1)
        | _ => none
    else none
  else none

/-- `captures_iter`: non-overlapping matches scanned left to right, returning
the group-1 captures. -/
def bgScanGo (lit : Str) : Nat → Str → List Str
  | _, [] => []
  | 0, _ => []
  | Nat.succ f, c :: cs =>
    match bgMatchAt lit (c :: cs) with
    | some (cap, n) => cap :: bgScanGo lit f ((c :: cs).drop n)
    | none => bgScanGo lit f cs

def bgScan (lit : Str) (s : Str) : List Str := bgScanGo lit s.length s

/-- `html_parser.rs::HtmlParser::extract_background_images_from_css`: the
source iterates three patterns (the `background-image` one twice), collecting
an Image link per capture that resolves. -/
def extract_background_images_from_css (base : Url) (css : Str) :
    List ResourceLink :=
  ([str "background-image:", str "background:", str "background-image:"]).foldl
    (fun acc lit =>
      acc ++ (bgScan lit css).filterMap
        (fun u => create_resource_link base u ResourceType.Image))
    []

/-- `html_parser.rs::HtmlParser::extract_resources`: six scans in source
order — stylesheet links, scripts, images, inline-style backgrounds, a second
identical stylesheet scan, and anchors. -/
def extract_resources (base : Url) (doc : List Element) : List ResourceLink :=
  let cssLoop := (findTag doc (str "link")).filterMap (fun e =>
    match e.attr (str "href") with
    | some href =>
      match e.attr (str "rel") with
      | some rel =>
        if occursB (str "stylesheet") rel then
          create_resource_link base href ResourceType.CSS
        else none
      | none => none
    | none => none)
  let r2 := (findTag doc (str "script")).filterMap (fun e =>
    (e.attr (str "src")).bind
      (fun src => create_resource_link base src ResourceType.JavaScript))
  let r3 := (findTag doc (str "img")).filterMap (fun e =>
    (e.attr (str "src")).bind
      (fun src => create_resource_link base src ResourceType.Image))
  let r4 := (findWithAttr doc (str "style")).foldl (fun acc e =>
    match e.attr (str "style") with
    | some st => acc ++ extract_background_images_from_css base st
    | none => acc) []
  let r6 := (findTag doc (str "a")).filterMap (fun e =>
    (e.attr (str "href")).bind
      (fun href => create_resource_link base href ResourceType.Link))
  cssLoop ++ r2 ++ r3 ++ r4 ++ cssLoop ++ r6

/-! ### downloader.rs -/

/-- The configuration fields of `downloader.rs::WebsiteMirror` that the
modelled functions read. -/
structure MirrorCfg where
  base_url : Str
  max_depth : Nat
  download_external : Bool
  only_resources : Option (List Str)
  convert_to_webp : Bool

/-- `downloader.rs::WebsiteMirror::is_same_domain`: parse the candidate, get
its host, parse the configured base URL, get its host, and compare for
equality or a `.`-separated subdomain relation; any failure yields `false`. -/
def is_same_domain (cfg : MirrorCfg) (u : Str) : Bool :=
  match Url.parseL u with
  | some pu =>
    match pu.host with
    | some h =>
      match Url.parseL cfg.base_url with
      | some bu =>
        match bu.host with
        | some bh => h == bh || sEndsWith h ('.' :: bh)
        | none => false
      | none => false
    | none => false
  | none => false

/-- The canonical filter name of each resource kind
(`should_process_resource_type`'s match). -/
def typeStr : ResourceType → Str
  | ResourceType.Image => str "images"
  | ResourceType.CSS => str "css"
  | ResourceType.JavaScript => str "js"
  | ResourceType.Link => str "html"
  | ResourceType.PDF => str "pdf"
  | ResourceType.Video => str "video"
  | ResourceType.Other => str "other"

def toLowerStr (s : Str) : Str := s.map Char.toLower

/-- `downloader.rs::WebsiteMirror::should_process_resource_type`. -/
def should_process_resource_type (cfg : MirrorCfg) (rt : ResourceType) : Bool :=
  match cfg.only_resources with
  | some rs => rs.any (fun r => toLowerStr r == typeStr rt)
  | none => true

/-- `downloader.rs::WebsiteMirror::should_download_resource`.  Note that the
source matches only on the resource type and the domain; it does not read
`only_resources`. -/
def should_download_resource (cfg : MirrorCfg) (u : Str) (rt : ResourceType) :
    Bool :=
  match rt with
  | ResourceType.CSS | ResourceType.JavaScript | ResourceType.Image
  | ResourceType.PDF | ResourceType.Video => true
  | ResourceType.Link => is_same_domain cfg u
  | ResourceType.Other => true

/-- The six exact-case extension tests of `download_resource` (lines 946-949)
and `get_local_path_for_resource_static`. -/
def endsWithImageExt (u : Str) : Bool :=
  sEndsWith u (str ".jpg") || sEndsWith u (str ".jpeg") ||
    sEndsWith u (str ".png") || sEndsWith u (str ".JPG") ||
    sEndsWith u (str ".JPEG") || sEndsWith u (str ".PNG")

def endsWithWebp (u : Str) : Bool :=
  sEndsWith u (str ".webp") || sEndsWith u (str ".WEBP")

/-- The condition under which `download_resource` converts and renames. -/
def webpApplies (convert : Bool) (u : Str) : Bool :=
  convert && endsWithImageExt u && !endsWithWebp u

/-- The six chained global `String::replace` calls that rewrite the local
path's extension (`download_resource` lines 955-960, identically
`get_local_path_for_resource_static` lines 168-173). -/
def chainReplaceWebp (l : Str) : Str :=
  replaceAll (str ".PNG") (str ".webp")
    (replaceAll (str ".JPEG") (str ".webp")
      (replaceAll (str ".JPG") (str ".webp")
        (replaceAll (str ".png") (str ".webp")
          (replaceAll (str ".jpeg") (str ".webp")
            (replaceAll (str ".jpg") (str ".webp") l)))))

/-- The final local path `download_resource` saves to and records in the
ledger: the URL's local path, with the extension-replacement chain applied
when WebP conversion triggers (lines 936-982; `final_local_path` and
`save_path` agree on both branches). -/
def downloadSavePath (base : Url) (convert : Bool) (u : Str) : Option Str :=
  (url_to_local_path_string base u).map
    (fun lp => if webpApplies convert u then chainReplaceWebp lp else lp)

/-- The decoded-image facts `convert_to_webp_static` inspects: only the alpha
flag drives control flow; pixel data is abstracted. -/
structure ImgM where
  hasAlpha : Bool

/-- `downloader.rs::WebsiteMirror::convert_to_webp_static`.  The image codec
is the external capability pair `decode`/`encode` of the spec: `decode`
models `image::load_from_memory`, `encodeRgba`/`encodeRgb` model the WebP
encoder (which never fails).  On decode failure the source returns
`Ok(original bytes)`; on success it returns the encoding; it has no error
return at all. -/
def convert_to_webp_static (decode : List Nat → Option ImgM)
    (encodeRgba encodeRgb : ImgM → List Nat) (data : List Nat) :
    Except String (List Nat) :=
  match decode data with
  | none => Except.ok data
  | some img =>
    Except.ok (if img.hasAlpha then encodeRgba img else encodeRgb img)

/-! ### The comprehensive WebP replacement pass

`perform_comprehensive_webp_replacement` masks `.webp`/`.WEBP` with marker
strings, globally replaces the six exact-case image extensions, restores the
markers, and then runs three regex `replace_all` passes.  The regex engine
(the `regex` crate, leftmost-first preference) is modelled by the
backtracking matchers below, specialized to the three source patterns. -/

/-- Characters admitted by the capture class `[^"']` of the comprehensive
patterns. -/
def capClassChar (c : Char) : Bool := !(c == squote || c == dquote)

/-- The `\.(?:jpg|jpeg|png|JPG|JPEG|PNG)` tail of the capture: a dot followed
by one of the six alternatives (at most one can match at a given position, so
the alternation order is immaterial). -/
def extAltAt : Str → Option Nat
  | [] => none
  | c :: rest =>
    if c = '.' then
      if matchHere (str "jpg") rest then some 4
      else if matchHere (str "jpeg") rest then some 5
      else if matchHere (str "png") rest then some 4
      else if matchHere (str "JPG") rest then some 4
      else if matchHere (str "JPEG") rest then some 5
      else if matchHere (str "PNG") rest then some 4
      else none
    else none

/-- Matches `([^"']*\.(?:jpg|jpeg|png|JPG|JPEG|PNG))` followed by `closing`,
with the greedy star's longest-first backtracking: extending the star is
preferred, and on failure the extension alternative plus closing is tried at
the current position.  Returns (capture length, total length consumed). -/
def capLoopGo (closing : Str → Option Nat) : Str → Option (Nat × Nat)
  | [] => none
  | c :: cs =>
    let deeper :=
      if capClassChar c then
        (capLoopGo closing cs).map (fun p => (p.1 + 1, p.2 + 1))
      else none
    match deeper with
    | some r => some r
    | none =>
      match extAltAt (c :: cs) with
      | some en =>
        match closing ((c :: cs).drop en) with
        | some cn => some (en, en + cn)
        | none => none
      | none => none

/-- The closing `["']?\)` of the `url(...)` patterns (the optional quote
greedily consumed first). -/
def closeQuoteParen : Str → Option Nat
  | [] => none
  | c :: rest =>
    if c == squote || c == dquote then
      match rest with
      | ')' :: _ => some 2
      | _ => none
    else if c == ')' then some 1
    else none

/-- The closing `["']` of the `src=` pattern. -/
def closeQuote : Str → Option Nat
  | [] => none
  | c :: _ => if c == squote || c == dquote then some 1 else none

/-- A match attempt, at the start of `s`, of
`url\(["']?([^"']*\.(?:jpg|jpeg|png|JPG|JPEG|PNG))["']?\)`.
Returns the capture and total match length. -/
def matchUrlParenAt (s : Str) : Option (Str × Nat) :=
  if matchHere (str "url(") s then
    let s1 := s.drop 4
    let withQ : Option (Str × Nat) :=
      match s1 with
      | c :: rest =>
        if c == squote || c == dquote then
          (capLoopGo closeQuoteParen rest).map
            (fun p => (rest.take p.1, 4 + 1 + p.2))
        else none
      | [] => none
    match withQ with
    | some r => some r
    | none =>
      (capLoopGo closeQuoteParen s1).map (fun p => (s1.take p.1, 4 + p.2))
  else none

/-- A match attempt of `src=["']([^"']*\.(?:jpg|jpeg|png|JPG|JPEG|PNG))["']`. -/
def matchSrcAt (s : Str) : Option (Str × Nat) :=
  if matchHere (str "src=") s then
    match s.drop 4 with
    | c :: rest =>
      if c == squote || c == dquote then
        (capLoopGo closeQuote rest).map (fun p => (rest.take p.1, 4 + 1 + p.2))
      else none
    | [] => none
  else none

/-- A match attempt of
`background-image:\s*url\(["']?([^"']*\.(?:jpg|jpeg|png|JPG|JPEG|PNG))["']?\)`. -/
def matchBgImgAt (s : Str) : Option (Str × Nat) :=
  if matchHere (str "background-image:") s then
    match matchUrlParenAt ((s.drop (str "background-image:").length).drop
        (((s.drop (str "background-image:").length).takeWhile isWs).length)) with
    | some (cap, n) =>
      some (cap, (str "background-image:").length +
        ((s.drop (str "background-image:").length).takeWhile isWs).length + n)
    | none => none
  else none

/-- `Regex::replace_all`: scan left to right, replacing non-overlapping
matches (every modelled matcher consumes at least one character). -/
def regexReplaceGo (m : Str → Option (Str × Nat)) (repl : Str → Str) :
    Nat → Str → Str
  | _, [] => []
  | 0, s => s
  | Nat.succ f, c :: cs =>
    match m (c :: cs) with
    | some (cap, n) => repl cap ++ regexReplaceGo m repl f ((c :: cs).drop n)
    | none => c :: regexReplaceGo m repl f cs

def regexReplace (m : Str → Option (Str × Nat)) (repl : Str → Str)
    (s : Str) : Str :=
  regexReplaceGo m repl s.length s

def markerL : Str := str "___WEBP_MARKER___"
def markerU : Str := str "___WEBP_MARKER_UPPER___"

/-- `downloader.rs::WebsiteMirror::perform_comprehensive_webp_replacement`:
mask `.webp`/`.WEBP`, globally replace the six exact-case extensions with
`.webp`, restore the markers, then run the three regex replacement passes
(whose replacement strings are `url($1.webp)`, `src="$1.webp"` and
`background-image: url($1.webp)`). -/
def perform_comprehensive_webp_replacement (s : Str) : Str :=
  let s1 := replaceAll (str ".webp") markerL s
  let s2 := replaceAll (str ".WEBP") markerU s1
  let s3 := replaceAll (str ".jpg") (str ".webp") s2
  let s4 := replaceAll (str ".jpeg") (str ".webp") s3
  let s5 := replaceAll (str ".png") (str ".webp") s4
  let s6 := replaceAll (str ".JPG") (str ".webp") s5
  let s7 := replaceAll (str ".JPEG") (str ".webp") s6
  let s8 := replaceAll (str ".PNG") (str ".webp") s7
  let s9 := replaceAll markerL (str ".webp") s8
  let s10 := replaceAll markerU (str ".WEBP") s9
  let s11 := regexReplace matchUrlParenAt
    (fun cap => str "url(" ++ cap ++ str ".webp)") s10
  let s12 := regexReplace matchSrcAt
    (fun cap => str "src=" ++ dquote :: (cap ++ str ".webp" ++ [dquote])) s11
  regexReplace matchBgImgAt
    (fun cap => str "background-image: url(" ++ cap ++ str ".webp)") s12

/-! ### One run: the resource fetch-and-cache path and the page crawl

`download_resource` and `process_page` are effectful; they are embedded as
state transformers over explicit run state.  The HTTP client is the external
fetch capability `oracle` (`none` covers a request error, a non-200 status
and a body-read error — each of which the source logs and converts to
`Ok(())` without recording anything).  The filesystem write capability is
modelled as always succeeding; `FileManager::save_file`'s MIME-based
extension adjustment is not modelled, as the at-most-once ledger is keyed by
URL and never reads written file names back. -/

def splitOnChar (ch : Char) : Str → List Str
  | [] => [[]]
  | c :: cs =>
    let rest := splitOnChar ch cs
    if c == ch then [] :: rest
    else
      match rest with
      | [] => [[c]]
      | a :: as_ => (c :: a) :: as_

def joinWith (ch : Char) : List Str → Str
  | [] => []
  | [x] => x
  | x :: xs => x ++ ch :: joinWith ch xs

/-- The on-disk path `FileManager::file_exists` (and
`create_directories_for_url`) derives from a string: split on `/`, drop empty
segments, and push the segments under the base directory (abstracted away). -/
def diskPath (s : Str) : Str :=
  joinWith '/' ((splitOnChar '/' s).filter (fun seg => !seg.isEmpty))

structure RunState where
  store : List (Str × Str)
  disk : List Str
  fetchLog : List Str
deriving DecidableEq, Repr

/-- `PersistentStore::has_download`. -/
def storeHas (st : List (Str × Str)) (u : Str) : Bool :=
  st.any (fun p => p.1 == u)

/-- `PersistentStore::add_download` (a keyed-map insert; the model shadows). -/
def storeAdd (st : List (Str × Str)) (u p : Str) : List (Str × Str) :=
  (u, p) :: st

/-- `downloader.rs::WebsiteMirror::download_resource` as a state transformer.
`none` models an `Err` propagating to the caller (only the `?` on the local
path inside the file-exists branch can produce one); all fetch failures
return `some` with no ledger change, exactly as the source returns `Ok(())`.
The WebP transcode step never fails (see `convert_to_webp_static`), so its
`?` is not a failure point. -/
def download_resource (base : Url) (oracle : Str → Option (List Nat))
    (cfg : MirrorCfg) (u : Str) (s : RunState) : Option RunState :=
  if storeHas s.store u then some s
  else if s.disk.contains (diskPath u) then
    match url_to_local_path_string base u with
    | none => none
    | some lp => some { s with store := storeAdd s.store u lp }
  else
    let s1 := { s with fetchLog := s.fetchLog ++ [u] }
    match oracle u with
    | none => some s1
    | some _content =>
      match url_to_local_path_string base u with
      | none => some s1
      | some lp =>
        let savePath :=
          if webpApplies cfg.convert_to_webp u then chainReplaceWebp lp else lp
        some { s1 with
          disk := s1.disk ++ [diskPath savePath],
          store := storeAdd s1.store u savePath }

/-- The sequence of `download_resource` calls `process_page` issues for a
page's non-page resources (CSS, then JS, then images, then PDFs, then
videos), each followed by `?`, so an `Err` aborts the page. -/
def processResources (base : Url) (oracle : Str → Option (List Nat))
    (cfg : MirrorCfg) : List Str → RunState → Option RunState
  | [], s => some s
  | u :: us, s =>
    match download_resource base oracle cfg u s with
    | none => none
    | some s' => processResources base oracle cfg us s'

structure PageState where
  visited : List Str
  pageLog : List Str
deriving DecidableEq, Repr

/-- The page-crawl skeleton of `process_page`/`mirror_website`: check and
claim the visited set, check the depth limit, fetch the page (`pageOracle u`
yields the same-run link references on success, `none` on a transport error
or non-200 status, both of which the source logs and continues past), and
recurse depth-first into the same-domain links.  The source's recursion is
rendered as an explicit worklist processed in the same order (children before
remaining siblings); `fuel` only bounds the recursion for totality — the
theorems hold for every fuel.  Resource downloads issued per page are
modelled separately by `processResources`. -/
def crawl (pageOracle : Str → Option (List Str)) (cfg : MirrorCfg) :
    Nat → List (Str × Nat) → PageState → PageState
  | 0, _, st => st
  | Nat.succ _, [], st => st
  | Nat.succ f, (u, depth) :: rest, st =>
    if st.visited.contains u then crawl pageOracle cfg f rest st
    else
      let st1 := { st with visited := st.visited ++ [u] }
      if cfg.max_depth > 0 && depth > cfg.max_depth then
        crawl pageOracle cfg f rest st1
      else
        let st2 := { st1 with pageLog := st1.pageLog ++ [u] }
        match pageOracle u with
        | none => crawl pageOracle cfg f rest st2
        | some links =>
          let children :=
            (links.filter (fun l => is_same_domain cfg l)).map
              (fun l => (l, depth + 1))
          crawl pageOracle cfg f (children ++ rest) st2

/-! ### Shared concrete fixtures -/

/-- The parse of the base URL `https://ex.com` (see `exBase_parse`). -/
def exBase : Url := ⟨str "https", some (str "ex.com"), str "/", none, none⟩

theorem exBase_parse : Url.parseL (str "https://ex.com") = some exBase := by
  decide

/-- The tokenizer's view of the scenario document
`<link rel="stylesheet" href="/a.css"><img src="/b.jpg"><a href="/c">x</a>`:
three elements in document order with their attributes (the HTML tokenizer is
an external capability per the spec). -/
def exampleDoc : List Element :=
  [⟨str "link", [(str "rel", str "stylesheet"), (str "href", str "/a.css")]⟩,
   ⟨str "img", [(str "src", str "/b.jpg")]⟩,
   ⟨str "a", [(str "href", str "/c")]⟩]

/-- A configuration with the `{images, css}` allow-list. -/
def cfgImagesCss : MirrorCfg :=
  ⟨str "https://example.com", 3, false, some [str "images", str "css"], false⟩

/-- A configuration with no resource filter. -/
def cfgPlain : MirrorCfg := ⟨str "https://ex.com", 0, true, none, false⟩

/-! ### C5 — sanitization -/

theorem sanChar_spec (a : Char) :
    sanChar a = '_' ∨
      (sanChar a = a ∧
        (a.isAlphanum = true ∨ a = '/' ∨ a = '.' ∨ a = '-')) := by
  unfold sanChar
  split
  next => left; rfl
  next =>
    split
    next => left; rfl
    next =>
      split
      next h3 =>
        right
        refine ⟨rfl, ?_⟩
        simp only [Bool.or_eq_true, beq_iff_eq] at h3
        tauto
      next => left; rfl

/-- C5: for every input string, the sanitized path contains no question mark,
ampersand, equals sign, hash or space; every character outside the allowed
class (ASCII alphanumerics, slash, dot, dash) is mapped to an underscore; and
sanitization is the character-wise map of `sanChar`. -/
theorem C5_sanitize_complete (s : Str) :
    (∀ c, c ∈ sanitize_path s →
      c ≠ '?' ∧ c ≠ '&' ∧ c ≠ '=' ∧ c ≠ '#' ∧ c ≠ ' ') ∧
    (∀ c, ¬(c.isAlphanum = true ∨ c = '/' ∨ c = '.' ∨ c = '-') →
      sanChar c = '_') ∧
    sanitize_path s = s.map sanChar := by
  refine ⟨?_, ?_, rfl⟩
  · intro c hc
    rcases List.mem_map.1 hc with ⟨a, _, rfl⟩
    rcases sanChar_spec a with h | ⟨heq, hallow⟩
    · rw [h]; refine ⟨?_, ?_, ?_, ?_, ?_⟩ <;> decide
    · rw [heq]
      rcases hallow with h | rfl | rfl | rfl
      · refine ⟨?_, ?_, ?_, ?_, ?_⟩ <;> (rintro rfl; exact absurd h (by decide))
      · refine ⟨?_, ?_, ?_, ?_, ?_⟩ <;> decide
      · refine ⟨?_, ?_, ?_, ?_, ?_⟩ <;> decide
      · refine ⟨?_, ?_, ?_, ?_, ?_⟩ <;> decide
  · intro c hc
    rcases sanChar_spec c with h | ⟨_, hallow⟩
    · exact h
    · exact absurd hallow hc

theorem C5_witness :
    (('?' ∈ sanitize_path (str "a?b=c d")) → False) ∧ sanChar '+' = '_' := by
  constructor
  · intro h
    exact ((C5_sanitize_complete (str "a?b=c d")).1 '?' h).1 rfl
  · exact (C5_sanitize_complete []).2.1 '+' (by decide)

/-! ### C10 — same-domain check -/

/-- C10: the same-domain check is a total function; it is `true` exactly when
both the candidate URL and the configured base URL parse with a host and the
candidate's host equals the base host or ends with a dot followed by it, and
hence `false` on every parse failure or host-less URL.  The `Link`
(hyperlink) arm of the download decision is exactly this check, so a
malformed page reference is classified cross-domain and skipped. -/
theorem C10_same_domain_total (cfg : MirrorCfg) (u : Str) :
    (is_same_domain cfg u = true ↔
      ∃ h bh, (Url.parseL u).bind Url.host = some h ∧
        (Url.parseL cfg.base_url).bind Url.host = some bh ∧
        (h = bh ∨ sEndsWith h ('.' :: bh) = true)) ∧
    should_download_resource cfg u ResourceType.Link = is_same_domain cfg u := by
  constructor
  · unfold is_same_domain
    cases hpu : Url.parseL u with
    | none => simp [hpu]
    | some pu =>
      cases hh : pu.host with
      | none => simp [hpu, hh, Option.bind]
      | some h =>
        cases hbu : Url.parseL cfg.base_url with
        | none => simp [hpu, hh, hbu, Option.bind]
        | some bu =>
          cases hbh : bu.host with
          | none => simp [hpu, hh, hbu, hbh, Option.bind]
          | some bh =>
            simp only [hpu, hh, hbu, hbh, Option.bind, Bool.or_eq_true,
              beq_iff_eq]
            constructor
            · intro hor
              exact ⟨h, bh, rfl, rfl, hor⟩
            · rintro ⟨h', bh', hh', hbh', hor⟩
              cases hh'; cases hbh'
              exact hor
  · rfl

/-! ### C3 — resource filter -/

/-- C3 counterexample: with the allow-list set to exactly `{images, css}`,
the download decision `should_download_resource` — the per-resource fetch
gate used by `process_page` — still returns `true` for a JavaScript (Script)
resource, while the claim requires `false` for the Script kind. -/
theorem C3_counterexample :
    should_download_resource cfgImagesCss (str "https://example.com/app.js")
      ResourceType.JavaScript = true := by
  rfl

/-- C3 amended: the separate predicate `should_process_resource_type` does
implement the claimed table — with allow-list `{images, css}` it is `true`
exactly for the Image and CSS kinds — but the fetch decision
`should_download_resource` never consults the configured resource filter: its
result is invariant under changing `only_resources`. -/
theorem C3_amended :
    (∀ rt, should_process_resource_type cfgImagesCss rt = true ↔
      (rt = ResourceType.Image ∨ rt = ResourceType.CSS)) ∧
    (∀ base maxd de f1 f2 webp u rt,
      should_download_resource ⟨base, maxd, de, f1, webp⟩ u rt =
        should_download_resource ⟨base, maxd, de, f2, webp⟩ u rt) := by
  constructor
  · intro rt; cases rt <;> simp [should_process_resource_type, cfgImagesCss,
      toLowerStr, typeStr, str]
  · intro base maxd de f1 f2 webp u rt
    cases rt <;> rfl

/-! ### C6 — local-path scenarios -/

/-- C6 counterexample: `toLocalPath("https://ex.com/page?x=1")` is not
`"page/index.html?x_1"` — the sanitizer runs over the whole string after the
query is appended, so the separating `?` itself becomes `_`. -/
theorem C6_counterexample :
    ((Url.parseL (str "https://ex.com")).bind
        (fun b => url_to_local_path_string b (str "https://ex.com/page?x=1")))
      ≠ some (str "page/index.html?x_1") := by
  decide

/-- C6 amended: `toLocalPath("https://ex.com/dir/")` is `"dir/index.html"`,
and `toLocalPath("https://ex.com/page?x=1")` is `"page/index.html_x_1"`: the
query is appended after a `?`, but the final whole-string sanitization then
replaces that `?` (and the query's `=`) with `_`. -/
theorem C6_amended :
    ((Url.parseL (str "https://ex.com")).bind
        (fun b => url_to_local_path_string b (str "https://ex.com/dir/")))
      = some (str "dir/index.html") ∧
    ((Url.parseL (str "https://ex.com")).bind
        (fun b => url_to_local_path_string b (str "https://ex.com/page?x=1")))
      = some (str "page/index.html_x_1") := by
  decide

/-! ### C7 — scenario extraction -/

/-- C7 counterexample: the scenario document yields four references, not
three — `extract_resources` contains two identical stylesheet-scanning
loops, so the stylesheet reference is produced twice. -/
theorem C7_counterexample :
    ((Url.parseL (str "https://ex.com")).map
        (fun b => (extract_resources b exampleDoc).length)) = some 4 ∧
    ((Url.parseL (str "https://ex.com")).map
        (fun b => (extract_resources b exampleDoc).length)) ≠ some 3 := by
  decide

/-- C7 amended: extracting from
`<link rel="stylesheet" href="/a.css"><img src="/b.jpg"><a href="/c">x</a>`
at base `https://ex.com` yields exactly four references — the stylesheet one
twice (once per duplicate loop), then the image, then the page link — with
the expected absolute URLs and kinds. -/
theorem C7_amended :
    ((Url.parseL (str "https://ex.com")).map
        (fun b => (extract_resources b exampleDoc).map
          (fun r => (r.original_url, r.resource_type)))) =
      some [(str "https://ex.com/a.css", ResourceType.CSS),
            (str "https://ex.com/b.jpg", ResourceType.Image),
            (str "https://ex.com/a.css", ResourceType.CSS),
            (str "https://ex.com/c", ResourceType.Link)] := by
  decide

/-! ### C4 — ineligible schemes and fragments -/

/-- C4: contrary to the claim (and to the repository's own unit tests, which
assert `is_err` for each of these inputs), URL resolution succeeds for
`data:`, `mailto:`, `tel:` and `javascript:` references and for a bare
fragment — the `url` crate parses a scheme-carrying reference as an absolute
URL and joins a fragment onto the base — so `create_resource_link` yields a
`ResourceLink` for every one of them. -/
theorem C4_code_behavior :
    ((Url.parseL (str "https://example.com")).bind (fun b =>
        create_resource_link b (str "data:image/png;base64,qqqq")
          ResourceType.Image)).isSome = true ∧
    ((Url.parseL (str "https://example.com")).bind (fun b =>
        create_resource_link b (str "mailto:test@example.com")
          ResourceType.Link)).isSome = true ∧
    ((Url.parseL (str "https://example.com")).bind (fun b =>
        create_resource_link b (str "tel:+1234567890")
          ResourceType.Link)).isSome = true ∧
    ((Url.parseL (str "https://example.com")).bind (fun b =>
        create_resource_link b (str "javascript:alert(1)")
          ResourceType.Link)).isSome = true ∧
    ((Url.parseL (str "https://example.com")).bind (fun b =>
        (resolve_url b (str "#fragment")).map Url.serialize)) =
      some (str "https://example.com/#fragment") := by
  decide

/-! ### C9 — transcoder fallback -/

/-- C9: the image transcoder never returns an error — for every decode
capability and byte input it returns `Ok`, and when decoding fails it returns
the original bytes unchanged; hence the `?` applied to it inside
`download_resource` can never abort a resource fetch. -/
theorem C9_transcode_total (decode : List Nat → Option ImgM)
    (eA eO : ImgM → List Nat) (data : List Nat) :
    (∀ e, convert_to_webp_static decode eA eO data ≠ Except.error e) ∧
    (decode data = none →
      convert_to_webp_static decode eA eO data = Except.ok data) := by
  constructor
  · intro e h
    unfold convert_to_webp_static at h
    cases hd : decode data <;> rw [hd] at h <;> simp at h
  · intro h
    unfold convert_to_webp_static
    rw [h]

theorem C9_witness :
    ((fun _ : List Nat => (none : Option ImgM)) [1, 2, 3] = none) ∧
    convert_to_webp_static (fun _ => none) (fun _ => []) (fun _ => [])
      [1, 2, 3] = Except.ok [1, 2, 3] :=
  ⟨rfl, (C9_transcode_total (fun _ => none) (fun _ => []) (fun _ => [])
    [1, 2, 3]).2 rfl⟩

/-! ### C1 — WebP extension translation of the local path -/

/-- When the local path ends in one of the six exact-case image extensions,
the six chained global replacements leave it ending in `.webp`: the matching
extension's own pass rewrites the trailing occurrence (`replaceAll_ends`),
and every other pass preserves the relevant trailing suffix
(`replaceAll_keeps_suffix`), the side conditions being decidable facts about
the concrete patterns. -/
theorem chainReplaceWebp_ends (l : Str) (h : endsWithImageExt l = true) :
    sEndsWith (chainReplaceWebp l) (str ".webp") = true := by
  unfold endsWithImageExt at h
  simp only [Bool.or_eq_true] at h
  unfold chainReplaceWebp
  rcases h with ((((h | h) | h) | h) | h) | h
  · have s1 := replaceAll_ends (p := str ".jpg") (r := str ".webp")
      (by decide) (by decide) l h
    have s2 := replaceAll_keeps_suffix (p := str ".jpeg") (r := str ".webp")
      (by decide) (by decide) (by decide) _ s1
    have s3 := replaceAll_keeps_suffix (p := str ".png") (r := str ".webp")
      (by decide) (by decide) (by decide) _ s2
    have s4 := replaceAll_keeps_suffix (p := str ".JPG") (r := str ".webp")
      (by decide) (by decide) (by decide) _ s3
    have s5 := replaceAll_keeps_suffix (p := str ".JPEG") (r := str ".webp")
      (by decide) (by decide) (by decide) _ s4
    exact replaceAll_keeps_suffix (p := str ".PNG") (r := str ".webp")
      (by decide) (by decide) (by decide) _ s5
  · have k1 := replaceAll_keeps_suffix (p := str ".jpg") (r := str ".webp")
      (by decide) (by decide) (by decide) l h
    have s2 := replaceAll_ends (p := str ".jpeg") (r := str ".webp")
      (by decide) (by decide) _ k1
    have s3 := replaceAll_keeps_suffix (p := str ".png") (r := str ".webp")
      (by decide) (by decide) (by decide) _ s2
    have s4 := replaceAll_keeps_suffix (p := str ".JPG") (r := str ".webp")
      (by decide) (by decide) (by decide) _ s3
    have s5 := replaceAll_keeps_suffix (p := str ".JPEG") (r := str ".webp")
      (by decide) (by decide) (by decide) _ s4
    exact replaceAll_keeps_suffix (p := str ".PNG") (r := str ".webp")
      (by decide) (by decide) (by decide) _ s5
  · have k1 := replaceAll_keeps_suffix (p := str ".jpg") (r := str ".webp")
      (by decide) (by decide) (by decide) l h
    have k2 := replaceAll_keeps_suffix (p := str ".jpeg") (r := str ".webp")
      (by decide) (by decide) (by decide) _ k1
    have s3 := replaceAll_ends (p := str ".png") (r := str ".webp")
      (by decide) (by decide) _ k2
    have s4 := replaceAll_keeps_suffix (p := str ".JPG") (r := str ".webp")
      (by decide) (by decide) (by decide) _ s3
    have s5 := replaceAll_keeps_suffix (p := str ".JPEG") (r := str ".webp")
      (by decide) (by decide) (by decide) _ s4
    exact replaceAll_keeps_suffix (p := str ".PNG") (r := str ".webp")
      (by decide) (by decide) (by decide) _ s5
  · have k1 := replaceAll_keeps_suffix (p := str ".jpg") (r := str ".webp")
      (by decide) (by decide) (by decide) l h
    have k2 := replaceAll_keeps_suffix (p := str ".jpeg") (r := str ".webp")
      (by decide) (by decide) (by decide) _ k1
    have k3 := replaceAll_keeps_suffix (p := str ".png") (r := str ".webp")
      (by decide) (by decide) (by decide) _ k2
    have s4 := replaceAll_ends (p := str ".JPG") (r := str ".webp")
      (by decide) (by decide) _ k3
    have s5 := replaceAll_keeps_suffix (p := str ".JPEG") (r := str ".webp")
      (by decide) (by decide) (by decide) _ s4
    exact replaceAll_keeps_suffix (p := str ".PNG") (r := str ".webp")
      (by decide) (by decide) (by decide) _ s5
  · have k1 := replaceAll_keeps_suffix (p := str ".jpg") (r := str ".webp")
      (by decide) (by decide) (by decide) l h
    have k2 := replaceAll_keeps_suffix (p := str ".jpeg") (r := str ".webp")
      (by decide) (by decide) (by decide) _ k1
    have k3 := replaceAll_keeps_suffix (p := str ".png") (r := str ".webp")
      (by decide) (by decide) (by decide) _ k2
    have k4 := replaceAll_keeps_suffix (p := str ".JPG") (r := str ".webp")
      (by decide) (by decide) (by decide) _ k3
    have s5 := replaceAll_ends (p := str ".JPEG") (r := str ".webp")
      (by decide) (by decide) _ k4
    exact replaceAll_keeps_suffix (p := str ".PNG") (r := str ".webp")
      (by decide) (by decide) (by decide) _ s5
  · have k1 := replaceAll_keeps_suffix (p := str ".jpg") (r := str ".webp")
      (by decide) (by decide) (by decide) l h
    have k2 := replaceAll_keeps_suffix (p := str ".jpeg") (r := str ".webp")
      (by decide) (by decide) (by decide) _ k1
    have k3 := replaceAll_keeps_suffix (p := str ".png") (r := str ".webp")
      (by decide) (by decide) (by decide) _ k2
    have k4 := replaceAll_keeps_suffix (p := str ".JPG") (r := str ".webp")
      (by decide) (by decide) (by decide) _ k3
    have k5 := replaceAll_keeps_suffix (p := str ".JPEG") (r := str ".webp")
      (by decide) (by decide) (by decide) _ k4
    exact replaceAll_ends (p := str ".PNG") (r := str ".webp")
      (by decide) (by decide) _ k5

/-- C1 counterexample: three concrete URLs on which the claim fails.
`https://ex.com/photo.Jpg` ends case-insensitively in `.jpg`, yet with
conversion enabled its computed path is `photo.Jpg`, not ending in `.webp`
(the code tests only the six exact-case variants).  For
`https://ex.com/a.jpg.d/photo.jpg` the interior `.jpg` occurrence in the
directory name is also rewritten (`a.webp.d/photo.webp`), because the code
uses a global substring replace, not a trailing-extension replace.  And
`https://ex.com/a#x.jpg` ends in `.jpg` yet maps to `a/index.html` (the
fragment is dropped from the path), so not every `.jpg`-suffixed URL yields a
`.webp`-suffixed path. -/
theorem C1_counterexample :
    downloadSavePath exBase true (str "https://ex.com/photo.Jpg")
      = some (str "photo.Jpg") ∧
    sEndsWith (str "photo.Jpg") (str ".webp") = false ∧
    downloadSavePath exBase true (str "https://ex.com/a.jpg.d/photo.jpg")
      = some (str "a.webp.d/photo.webp") ∧
    downloadSavePath exBase true (str "https://ex.com/a#x.jpg")
      = some (str "a/index.html") := by
  decide

/-- C1 amended: with conversion enabled, the rewrite triggers exactly when
the URL ends in one of the six exact-case extensions `.jpg`/`.jpeg`/`.png`/
`.JPG`/`.JPEG`/`.PNG` and not in `.webp`/`.WEBP`; it then applies six global
substring replacements to the local path, so every exact-case occurrence —
interior ones included — is rewritten, and whenever the local path itself
ends in one of the six extensions the result ends in `.webp`.  When the
trigger is false (already-`.webp` URLs, other extensions, mixed-case
extensions) the path is returned unchanged. -/
theorem C1_amended :
    (∀ lp : Str, endsWithImageExt lp = true →
      sEndsWith (chainReplaceWebp lp) (str ".webp") = true) ∧
    (∀ (base : Url) (u lp : Str), webpApplies true u = true →
      url_to_local_path_string base u = some lp →
      downloadSavePath base true u = some (chainReplaceWebp lp)) ∧
    (∀ (base : Url) (u : Str), webpApplies true u = false →
      downloadSavePath base true u = url_to_local_path_string base u) := by
  refine ⟨chainReplaceWebp_ends, ?_, ?_⟩
  · intro base u lp happ hlp
    unfold downloadSavePath
    rw [hlp]
    simp [happ]
  · intro base u happ
    unfold downloadSavePath
    cases hlp : url_to_local_path_string base u with
    | none => rfl
    | some lp => simp [happ]

theorem C1_witness :
    endsWithImageExt (str "img/photo.JPG") = true ∧
    sEndsWith (chainReplaceWebp (str "img/photo.JPG")) (str ".webp") = true ∧
    webpApplies true (str "https://ex.com/img/photo.JPG") = true ∧
    url_to_local_path_string exBase (str "https://ex.com/img/photo.JPG")
      = some (str "img/photo.JPG") ∧
    downloadSavePath exBase true (str "https://ex.com/img/photo.JPG")
      = some (chainReplaceWebp (str "img/photo.JPG")) ∧
    webpApplies true (str "https://ex.com/style.css") = false ∧
    downloadSavePath exBase true (str "https://ex.com/style.css")
      = url_to_local_path_string exBase (str "https://ex.com/style.css") := by
  refine ⟨by decide, C1_amended.1 (str "img/photo.JPG") (by decide),
    by decide, by decide,
    C1_amended.2.1 exBase (str "https://ex.com/img/photo.JPG")
      (str "img/photo.JPG") (by decide) (by decide),
    by decide,
    C1_amended.2.2 exBase (str "https://ex.com/style.css") (by decide)⟩

/-! ### C2 — at-most-once fetch -/

theorem storeHas_add_mono {st : List (Str × Str)} {v : Str} (u p : Str)
    (h : storeHas st v = true) : storeHas (storeAdd st u p) v = true := by
  unfold storeHas storeAdd at *
  simp only [List.any_cons, Bool.or_eq_true]
  exact Or.inr h

theorem storeHas_add_self (st : List (Str × Str)) (u p : Str) :
    storeHas (storeAdd st u p) u = true := by
  unfold storeHas storeAdd
  simp [List.any_cons]

/-- The invariant threaded through the resource path: the fetch log is
duplicate-free and every fetched URL is recorded in the persistent store. -/
def resourceInv (s : RunState) : Prop :=
  s.fetchLog.Nodup ∧ ∀ u ∈ s.fetchLog, storeHas s.store u = true

theorem download_resource_inv {base : Url} {oracle : Str → Option (List Nat)}
    {cfg : MirrorCfg} (hsucc : ∀ u, (oracle u).isSome = true) {u : Str}
    (hlp : (url_to_local_path_string base u).isSome = true) {s s' : RunState}
    (hinv : resourceInv s)
    (hstep : download_resource base oracle cfg u s = some s') :
    resourceInv s' := by
  unfold download_resource at hstep
  cases hb1 : storeHas s.store u with
  | true =>
    simp only [hb1, if_pos] at hstep
    obtain rfl := Option.some.inj hstep
    exact hinv
  | false =>
    obtain ⟨lp, hlpeq⟩ := Option.isSome_iff_exists.1 hlp
    cases hb2 : s.disk.contains (diskPath u) with
    | true =>
      simp only [hb1, hb2, hlpeq, Bool.false_eq_true, if_false, if_true] at hstep
      obtain rfl := Option.some.inj hstep
      refine ⟨hinv.1, fun v hv => storeHas_add_mono u lp (hinv.2 v hv)⟩
    | false =>
      obtain ⟨content, hc⟩ := Option.isSome_iff_exists.1 (hsucc u)
      simp only [hb1, hb2, hc, hlpeq, Bool.false_eq_true, if_false] at hstep
      obtain rfl := Option.some.inj hstep
      have hu : u ∉ s.fetchLog := fun hmem => by
        rw [hinv.2 u hmem] at hb1; cases hb1
      constructor
      · simp [List.nodup_append, hinv.1, hu]
      · intro v hv
        rcases List.mem_append.1 hv with hv | hv
        · exact storeHas_add_mono _ _ (hinv.2 v hv)
        · rcases List.mem_singleton.1 hv with rfl
          exact storeHas_add_self _ _ _

theorem processResources_inv {base : Url} {oracle : Str → Option (List Nat)}
    {cfg : MirrorCfg} (hsucc : ∀ u, (oracle u).isSome = true) :
    ∀ (urls : List Str) (s s' : RunState),
      (∀ u ∈ urls, (url_to_local_path_string base u).isSome = true) →
      resourceInv s →
      processResources base oracle cfg urls s = some s' → resourceInv s' := by
  intro urls
  induction urls with
  | nil =>
    intro s s' _ hinv hstep
    obtain rfl := Option.some.inj hstep
    exact hinv
  | cons u us ih =>
    intro s s' hlps hinv hstep
    unfold processResources at hstep
    cases hd : download_resource base oracle cfg u s with
    | none => rw [hd] at hstep; cases hstep
    | some s1 =>
      rw [hd] at hstep
      exact ih s1 s' (fun v hv => hlps v (List.mem_cons_of_mem _ hv))
        (download_resource_inv hsucc (hlps u (List.mem_cons_self _ _)) hinv hd)
        hstep

theorem containsStr_iff (l : List Str) (v : Str) :
    l.contains v = true ↔ v ∈ l := List.elem_iff

/-- The number of occurrences of `u` in a list of strings. -/
def countOcc (u : Str) : List Str → Nat
  | [] => 0
  | v :: vs => (if v = u then 1 else 0) + countOcc u vs

theorem countOcc_eq_zero (u : Str) :
    ∀ l : List Str, u ∉ l → countOcc u l = 0 := by
  intro l
  induction l with
  | nil => intro _; rfl
  | cons v vs ih =>
    intro h
    have hvu : ¬(v = u) := fun hv => h (hv ▸ List.mem_cons_self v vs)
    simp only [countOcc, if_neg hvu, Nat.zero_add]
    exact ih (fun hm => h (List.mem_cons_of_mem _ hm))

theorem countOcc_le_one_of_nodup (u : Str) :
    ∀ l : List Str, l.Nodup → countOcc u l ≤ 1 := by
  intro l
  induction l with
  | nil => intro _; exact Nat.zero_le 1
  | cons v vs ih =>
    intro h
    rcases List.nodup_cons.1 h with ⟨hv, hvs⟩
    by_cases hvu : v = u
    · subst hvu
      simp [countOcc, countOcc_eq_zero v vs hv]
    · simp only [countOcc, if_neg hvu, Nat.zero_add]
      exact ih hvs

/-- The invariant threaded through the page crawl: the page-fetch log is
duplicate-free and contained in the visited set. -/
def pageInv (st : PageState) : Prop :=
  st.pageLog.Nodup ∧ ∀ u ∈ st.pageLog, u ∈ st.visited

theorem crawl_inv (po : Str → Option (List Str)) (cfg : MirrorCfg) :
    ∀ (fuel : Nat) (work : List (Str × Nat)) (st : PageState),
      pageInv st → pageInv (crawl po cfg fuel work st) := by
  intro fuel
  induction fuel with
  | zero => intro work st h; exact h
  | succ f ih =>
    intro work st h
    cases work with
    | nil => exact h
    | cons w rest =>
      obtain ⟨u, depth⟩ := w
      simp only [crawl]
      cases hv : st.visited.contains u with
      | true =>
        simp only [if_pos]
        exact ih rest st h
      | false =>
        have hunotv : u ∉ st.visited := fun hmem => by
          rw [(containsStr_iff _ _).2 hmem] at hv; cases hv
        have h1 : pageInv { st with visited := st.visited ++ [u] } :=
          ⟨h.1, fun v hv' => List.mem_append_left _ (h.2 v hv')⟩
        have hulog : u ∉ st.pageLog := fun hmem => hunotv (h.2 u hmem)
        have h2 : pageInv ⟨st.visited ++ [u], st.pageLog ++ [u]⟩ := by
          constructor
          · simp [List.nodup_append, h.1, hulog]
          · intro v hv'
            rcases List.mem_append.1 hv' with hv' | hv'
            · exact List.mem_append_left _ (h.2 v hv')
            · rcases List.mem_singleton.1 hv' with rfl
              exact List.mem_append_right _ (List.mem_singleton.2 rfl)
        simp only [hv, Bool.false_eq_true, if_false]
        cases hdep : (decide (cfg.max_depth > 0) && decide (depth > cfg.max_depth)) with
        | true =>
          simp only [hdep, if_true]
          exact ih rest _ h1
        | false =>
          simp only [hdep, Bool.false_eq_true, if_false]
          cases hpo : po u with
          | none => exact ih rest _ h2
          | some links => exact ih _ _ h2

/-- C2 amended: (resource path) within one run, if every resource fetch
attempt succeeds — and the URLs are local-path-computable, as every URL the
crawler passes is, being a serialized absolute URL — then the fetch
capability is invoked at most once per distinct URL, however many times the
URL is referenced: a successful fetch is recorded in the ledger and the
ledger is consulted first.  (Page path) the page fetch is invoked at most
once per URL unconditionally, because the visited set is claimed before
fetching and never shrinks.  A failed resource fetch, however, records
nothing and may be re-fetched (see the counterexample). -/
theorem C2_amended :
    (∀ (base : Url) (oracle : Str → Option (List Nat)) (cfg : MirrorCfg)
        (urls : List Str) (store₀ : List (Str × Str)) (disk₀ : List Str)
        (s' : RunState),
      (∀ u, (oracle u).isSome = true) →
      (∀ u ∈ urls, (url_to_local_path_string base u).isSome = true) →
      processResources base oracle cfg urls ⟨store₀, disk₀, []⟩ = some s' →
      ∀ u, countOcc u s'.fetchLog ≤ 1) ∧
    (∀ (po : Str → Option (List Str)) (cfg : MirrorCfg) (fuel : Nat)
        (work : List (Str × Nat)) (u : Str),
      countOcc u (crawl po cfg fuel work ⟨[], []⟩).pageLog ≤ 1) := by
  constructor
  · intro base oracle cfg urls store₀ disk₀ s' hsucc hlps hrun u
    have hinv0 : resourceInv ⟨store₀, disk₀, []⟩ := ⟨List.nodup_nil, by simp⟩
    have hinv := processResources_inv hsucc urls _ s' hlps hinv0 hrun
    exact countOcc_le_one_of_nodup u _ hinv.1
  · intro po cfg fuel work u
    have hinv0 : pageInv ⟨[], []⟩ := ⟨List.nodup_nil, by simp⟩
    have hinv := crawl_inv po cfg fuel work _ hinv0
    exact countOcc_le_one_of_nodup u _ hinv.1

/-- C2 counterexample: when the fetch of `https://ex.com/a.png` fails (the
oracle returns `none`, covering a transport error or non-200 status), nothing
is recorded in the ledger or on disk, so a second reference to the same URL
within the same run invokes the fetch capability again: the fetch log ends up
containing the URL twice, contradicting "at most once ... regardless of
whether earlier fetch attempts for it succeeded or failed". -/
theorem C2_counterexample :
    processResources exBase (fun _ => none) cfgPlain
        [str "https://ex.com/a.png", str "https://ex.com/a.png"]
        ⟨[], [], []⟩ =
      some ⟨[], [], [str "https://ex.com/a.png", str "https://ex.com/a.png"]⟩ ∧
    countOcc (str "https://ex.com/a.png")
        [str "https://ex.com/a.png", str "https://ex.com/a.png"] = 2 := by
  decide

theorem C2_witness :
    ((fun _ : Str => some ([] : List Nat)) (str "x")).isSome = true ∧
    (url_to_local_path_string exBase (str "https://ex.com/b.css")).isSome
      = true ∧
    processResources exBase (fun _ => some []) cfgPlain
        [str "https://ex.com/b.css"] ⟨[], [], []⟩ =
      some ⟨[(str "https://ex.com/b.css", str "b.css")], [str "b.css"],
        [str "https://ex.com/b.css"]⟩ ∧
    countOcc (str "https://ex.com/b.css")
      (⟨[(str "https://ex.com/b.css", str "b.css")], [str "b.css"],
        [str "https://ex.com/b.css"]⟩ : RunState).fetchLog ≤ 1 ∧
    countOcc (str "https://ex.com/")
      (crawl (fun _ => some []) cfgPlain 3 [(str "https://ex.com/", 0)]
        ⟨[], []⟩).pageLog ≤ 1 := by
  refine ⟨rfl, by decide, by decide, ?_, ?_⟩
  · exact C2_amended.1 exBase (fun _ => some []) cfgPlain
      [str "https://ex.com/b.css"] [] [] _ (fun _ => rfl) (by decide)
      (by decide) (str "https://ex.com/b.css")
  · exact C2_amended.2 (fun _ => some []) cfgPlain 3
      [(str "https://ex.com/", 0)] (str "https://ex.com/")

/-! ### C8 — comprehensive WebP replacement -/

/-- Does one of the six exact-case image extensions occur anywhere in `s`? -/
def hasAnyExt (s : Str) : Bool :=
  occursB (str ".jpg") s || occursB (str ".jpeg") s || occursB (str ".png") s ||
    occursB (str ".JPG") s || occursB (str ".JPEG") s || occursB (str ".PNG") s

theorem extAltAt_occurs {cs : Str} {n : Nat} (h : extAltAt cs = some n) :
    (matchHere (str ".jpg") cs || matchHere (str ".jpeg") cs ||
      matchHere (str ".png") cs || matchHere (str ".JPG") cs ||
      matchHere (str ".JPEG") cs || matchHere (str ".PNG") cs) = true := by
  cases cs with
  | nil => simp [extAltAt] at h
  | cons c rest =>
    by_cases hc : c = '.'
    · subst hc
      simp only [extAltAt, if_pos rfl] at h
      have e1 : matchHere (str ".jpg") ('.' :: rest)
          = matchHere (str "jpg") rest := rfl
      have e2 : matchHere (str ".jpeg") ('.' :: rest)
          = matchHere (str "jpeg") rest := rfl
      have e3 : matchHere (str ".png") ('.' :: rest)
          = matchHere (str "png") rest := rfl
      have e4 : matchHere (str ".JPG") ('.' :: rest)
          = matchHere (str "JPG") rest := rfl
      have e5 : matchHere (str ".JPEG") ('.' :: rest)
          = matchHere (str "JPEG") rest := rfl
      have e6 : matchHere (str ".PNG") ('.' :: rest)
          = matchHere (str "PNG") rest := rfl
      rw [e1, e2, e3, e4, e5, e6]
      by_cases h1 : matchHere (str "jpg") rest = true
      · simp [h1]
      · rw [if_neg h1] at h
        by_cases h2 : matchHere (str "jpeg") rest = true
        · simp [h2]
        · rw [if_neg h2] at h
          by_cases h3 : matchHere (str "png") rest = true
          · simp [h3]
          · rw [if_neg h3] at h
            by_cases h4 : matchHere (str "JPG") rest = true
            · simp [h4]
            · rw [if_neg h4] at h
              by_cases h5 : matchHere (str "JPEG") rest = true
              · simp [h5]
              · rw [if_neg h5] at h
                by_cases h6 : matchHere (str "PNG") rest = true
                · simp [h6]
                · rw [if_neg h6] at h
                  cases h
    · simp only [extAltAt, if_neg hc] at h
      cases h

theorem extAltAt_none_of_extFree {s : Str} (h : hasAnyExt s = false)
    (i : Nat) : extAltAt (s.drop i) = none := by
  cases hext : extAltAt (s.drop i) with
  | none => rfl
  | some n =>
    exfalso
    have hocc := extAltAt_occurs hext
    unfold hasAnyExt at h
    simp only [Bool.or_eq_true] at hocc
    simp only [Bool.or_eq_false_iff] at h
    obtain ⟨⟨⟨⟨⟨c1, c2⟩, c3⟩, c4⟩, c5⟩, c6⟩ := h
    rcases hocc with ((((hm | hm) | hm) | hm) | hm) | hm
    · rw [(occursB_iff _ _).2 ⟨i, hm⟩] at c1; cases c1
    · rw [(occursB_iff _ _).2 ⟨i, hm⟩] at c2; cases c2
    · rw [(occursB_iff _ _).2 ⟨i, hm⟩] at c3; cases c3
    · rw [(occursB_iff _ _).2 ⟨i, hm⟩] at c4; cases c4
    · rw [(occursB_iff _ _).2 ⟨i, hm⟩] at c5; cases c5
    · rw [(occursB_iff _ _).2 ⟨i, hm⟩] at c6; cases c6

theorem capLoopGo_ext {closing : Str → Option Nat} :
    ∀ {cs : Str} {r : Nat × Nat}, capLoopGo closing cs = some r →
      ∃ i, extAltAt (cs.drop i) ≠ none := by
  intro cs
  induction cs with
  | nil => intro r h; simp [capLoopGo] at h
  | cons c cs ih =>
    intro r h
    unfold capLoopGo at h
    cases hdeep : (if capClassChar c then
        (capLoopGo closing cs).map (fun p => (p.1 + 1, p.2 + 1))
      else none) with
    | some r' =>
      by_cases hcc : capClassChar c = true
      · rw [if_pos hcc] at hdeep
        rcases Option.map_eq_some'.1 hdeep with ⟨p, hp, _⟩
        rcases ih hp with ⟨i, hi⟩
        exact ⟨i + 1, by simpa using hi⟩
      · rw [if_neg hcc] at hdeep; cases hdeep
    | none =>
      simp only [hdeep] at h
      cases hext : extAltAt (c :: cs) with
      | none => rw [hext] at h; cases h
      | some en => exact ⟨0, by simp [hext]⟩

theorem matchUrlParenAt_ext {s : Str} {r : Str × Nat}
    (h : matchUrlParenAt s = some r) : ∃ j, extAltAt (s.drop j) ≠ none := by
  unfold matchUrlParenAt at h
  by_cases hm : (matchHere (str "url(") s) = true
  · rw [if_pos hm] at h
    cases hs1 : s.drop 4 with
    | nil =>
      simp only [hs1] at h
      rcases Option.map_eq_some'.1 h with ⟨p, hp, _⟩
      rcases capLoopGo_ext hp with ⟨i, hi⟩
      exact ⟨4 + i, by rw [← List.drop_drop, hs1]; simpa using hi⟩
    | cons c rest =>
      simp only [hs1] at h
      by_cases hq : (c == squote || c == dquote) = true
      · rw [if_pos hq] at h
        cases hwq : (capLoopGo closeQuoteParen rest).map
            (fun p => (rest.take p.1, 4 + 1 + p.2)) with
        | some r' =>
          rcases Option.map_eq_some'.1 hwq with ⟨p, hp, _⟩
          rcases capLoopGo_ext hp with ⟨i, hi⟩
          refine ⟨5 + i, ?_⟩
          have hrest : s.drop 5 = rest := by
            have : s.drop 5 = (s.drop 4).drop 1 := by
              rw [List.drop_drop]
            rw [this, hs1]
            rfl
          rw [← List.drop_drop, hrest]
          simpa using hi
        | none =>
          rw [hwq] at h
          rcases Option.map_eq_some'.1 h with ⟨p, hp, _⟩
          rcases capLoopGo_ext hp with ⟨i, hi⟩
          exact ⟨4 + i, by rw [← List.drop_drop, hs1]; simpa using hi⟩
      · rw [if_neg hq] at h
        rcases Option.map_eq_some'.1 h with ⟨p, hp, _⟩
        rcases capLoopGo_ext hp with ⟨i, hi⟩
        exact ⟨4 + i, by rw [← List.drop_drop, hs1]; simpa using hi⟩
  · rw [if_neg hm] at h; cases h

theorem matchSrcAt_ext {s : Str} {r : Str × Nat}
    (h : matchSrcAt s = some r) : ∃ j, extAltAt (s.drop j) ≠ none := by
  unfold matchSrcAt at h
  by_cases hm : (matchHere (str "src=") s) = true
  · rw [if_pos hm] at h
    cases hs1 : s.drop 4 with
    | nil => simp only [hs1] at h; cases h
    | cons c rest =>
      simp only [hs1] at h
      by_cases hq : (c == squote || c == dquote) = true
      · rw [if_pos hq] at h
        rcases Option.map_eq_some'.1 h with ⟨p, hp, _⟩
        rcases capLoopGo_ext hp with ⟨i, hi⟩
        refine ⟨5 + i, ?_⟩
        have hrest : s.drop 5 = rest := by
          have : s.drop 5 = (s.drop 4).drop 1 := by rw [List.drop_drop]
          rw [this, hs1]
          rfl
        rw [← List.drop_drop, hrest]
        simpa using hi
      · rw [if_neg hq] at h; cases h
  · rw [if_neg hm] at h; cases h

theorem matchBgImgAt_ext {s : Str} {r : Str × Nat}
    (h : matchBgImgAt s = some r) : ∃ j, extAltAt (s.drop j) ≠ none := by
  unfold matchBgImgAt at h
  by_cases hm : (matchHere (str "background-image:") s) = true
  · rw [if_pos hm] at h
    cases hup : matchUrlParenAt
        ((s.drop (str "background-image:").length).drop
          (((s.drop (str "background-image:").length).takeWhile isWs).length))
      with
    | none => simp only [hup] at h; cases h
    | some r' =>
      rcases matchUrlParenAt_ext hup with ⟨i, hi⟩
      refine ⟨(str "background-image:").length +
        (((s.drop (str "background-image:").length).takeWhile isWs).length + i),
        ?_⟩
      rw [← List.drop_drop, ← List.drop_drop]
      exact hi
  · rw [if_neg hm] at h; cases h

theorem regexReplaceGo_id {m : Str → Option (Str × Nat)} (repl : Str → Str) :
    ∀ (f : Nat) (s : Str), (∀ i, m (s.drop i) = none) →
      regexReplaceGo m repl f s = s := by
  intro f
  induction f with
  | zero => intro s _; cases s <;> rfl
  | succ f ih =>
    intro s h
    cases s with
    | nil => rfl
    | cons c cs =>
      have h0 : m (c :: cs) = none := by simpa using h 0
      simp only [regexReplaceGo, h0]
      rw [ih cs (fun i => by simpa using h (i + 1))]

theorem regexReplace_id {m : Str → Option (Str × Nat)} (repl : Str → Str)
    (s : Str) (h : ∀ i, m (s.drop i) = none) : regexReplace m repl s = s :=
  regexReplaceGo_id repl s.length s h

theorem matchUrlParenAt_none_of_extFree {s : Str} (h : hasAnyExt s = false)
    (i : Nat) : matchUrlParenAt (s.drop i) = none := by
  cases hm : matchUrlParenAt (s.drop i) with
  | none => rfl
  | some r =>
    exfalso
    rcases matchUrlParenAt_ext hm with ⟨j, hj⟩
    rw [List.drop_drop] at hj
    exact hj (extAltAt_none_of_extFree h (i + j))

theorem matchSrcAt_none_of_extFree {s : Str} (h : hasAnyExt s = false)
    (i : Nat) : matchSrcAt (s.drop i) = none := by
  cases hm : matchSrcAt (s.drop i) with
  | none => rfl
  | some r =>
    exfalso
    rcases matchSrcAt_ext hm with ⟨j, hj⟩
    rw [List.drop_drop] at hj
    exact hj (extAltAt_none_of_extFree h (i + j))

theorem matchBgImgAt_none_of_extFree {s : Str} (h : hasAnyExt s = false)
    (i : Nat) : matchBgImgAt (s.drop i) = none := by
  cases hm : matchBgImgAt (s.drop i) with
  | none => rfl
  | some r =>
    exfalso
    rcases matchBgImgAt_ext hm with ⟨j, hj⟩
    rw [List.drop_drop] at hj
    exact hj (extAltAt_none_of_extFree h (i + j))

/-- A document free of the six exact-case extensions, of `.webp`/`.WEBP`,
and of the two marker literals passes through every phase of the
comprehensive replacement unchanged. -/
theorem comprehensive_id {s : Str} (hext : hasAnyExt s = false)
    (hw : occursB (str ".webp") s = false)
    (hW : occursB (str ".WEBP") s = false)
    (hm : occursB markerL s = false)
    (hM : occursB markerU s = false) :
    perform_comprehensive_webp_replacement s = s := by
  unfold hasAnyExt at hext
  simp only [Bool.or_eq_false_iff] at hext
  obtain ⟨⟨⟨⟨⟨c1, c2⟩, c3⟩, c4⟩, c5⟩, c6⟩ := hext
  have hext' : hasAnyExt s = false := by
    unfold hasAnyExt
    simp [c1, c2, c3, c4, c5, c6]
  simp only [perform_comprehensive_webp_replacement]
  rw [replaceAll_id markerL s hw, replaceAll_id markerU s hW,
    replaceAll_id (str ".webp") s c1, replaceAll_id (str ".webp") s c2,
    replaceAll_id (str ".webp") s c3, replaceAll_id (str ".webp") s c4,
    replaceAll_id (str ".webp") s c5, replaceAll_id (str ".webp") s c6,
    replaceAll_id (str ".webp") s hm, replaceAll_id (str ".WEBP") s hM,
    regexReplace_id _ s (matchUrlParenAt_none_of_extFree hext'),
    regexReplace_id _ s (matchSrcAt_none_of_extFree hext'),
    regexReplace_id _ s (matchBgImgAt_none_of_extFree hext')]

/-- C8 counterexample: two concrete documents on which the claim fails.
`photo.Jpg` contains a mixed-case image extension — covered by the claim's
"any case" — yet the pass returns it unchanged (only the six exact-case
variants are replaced).  And `see ___WEBP_MARKER___` contains no image
extension at all, yet the pass rewrites it to `see .webp`: the
mask-and-restore markers are ordinary strings, so a document containing the
literal marker text is corrupted, contradicting "changes nothing else" and
"a document containing no .jpg/.jpeg/.png occurrence is returned
unchanged". -/
theorem C8_counterexample :
    perform_comprehensive_webp_replacement (str "photo.Jpg")
      = str "photo.Jpg" ∧
    perform_comprehensive_webp_replacement (str "see ___WEBP_MARKER___")
      = str "see .webp" := by
  decide

/-- C8 amended: the pass rewrites occurrences of the six exact-case variants
`.jpg`/`.jpeg`/`.png`/`.JPG`/`.JPEG`/`.PNG` to `.webp` while protecting
substrings already equal to `.webp`/`.WEBP` through marker masking;
mixed-case extensions are not rewritten; a document containing none of the
six extensions, no `.webp`/`.WEBP`, and neither marker literal is returned
unchanged (documents containing the literal marker text may be altered); and
on such documents — and on the exhibited rewriting examples — applying the
pass twice equals applying it once. -/
theorem C8_amended :
    (∀ s : Str, hasAnyExt s = false →
      occursB (str ".webp") s = false → occursB (str ".WEBP") s = false →
      occursB markerL s = false → occursB markerU s = false →
      perform_comprehensive_webp_replacement s = s ∧
        perform_comprehensive_webp_replacement
          (perform_comprehensive_webp_replacement s) =
          perform_comprehensive_webp_replacement s) ∧
    perform_comprehensive_webp_replacement (str "a.jpg b.JPEG c.webp d.Png")
      = str "a.webp b.webp c.webp d.Png" ∧
    perform_comprehensive_webp_replacement
        (perform_comprehensive_webp_replacement
          (str "a.jpg b.JPEG c.webp d.Png"))
      = perform_comprehensive_webp_replacement
          (str "a.jpg b.JPEG c.webp d.Png") ∧
    perform_comprehensive_webp_replacement (str "x.webp") = str "x.webp" := by
  refine ⟨?_, by decide, by decide, by decide⟩
  intro s h1 h2 h3 h4 h5
  have hid := comprehensive_id h1 h2 h3 h4 h5
  exact ⟨hid, by rw [hid, hid]⟩

theorem C8_witness :
    hasAnyExt (str "hello world") = false ∧
    occursB (str ".webp") (str "hello world") = false ∧
    occursB (str ".WEBP") (str "hello world") = false ∧
    occursB markerL (str "hello world") = false ∧
    occursB markerU (str "hello world") = false ∧
    perform_comprehensive_webp_replacement (str "hello world")
      = str "hello world" := by
  refine ⟨by decide, by decide, by decide, by decide, by decide, ?_⟩
  exact (C8_amended.1 (str "hello world") (by decide) (by decide) (by decide)
    (by decide) (by decide)).1

end Mirror
